import Mathlib

/-!
Verification of the earnings-call scraper (src/full_earnings_scraper.py).

Strings are modelled as lists of characters.  Python substring tests
(the `in` operator), `str.lower`, `str.strip`, and the two regular
expressions used by the code are embedded as executable Lean functions.
External library functions that no claim depends on (urllib's urljoin and
urlparse, the HTML anchor extractor, the HTTP session) are passed in as
explicit parameters, mirroring the spec's "external collaborator" view.
-/

/-- Python `needle.isPrefixOf hay` style check: first argument is the
haystack, second the candidate prefix. -/
def startsWith : List Char → List Char → Bool
  | _, [] => true
  | [], _ :: _ => false
  | h :: t, n :: m => h == n && startsWith t m

/-- Python `needle in hay` substring containment (contiguous substring). -/
def containsSub : List Char → List Char → Bool
  | [], needle => startsWith [] needle
  | h :: t, needle => startsWith (h :: t) needle || containsSub t needle

/-- ASCII lower-casing of one character, modelling Python str.lower on the
ASCII inputs relevant here. -/
def lowerChar (c : Char) : Char :=
  if 'A' ≤ c ∧ c ≤ 'Z' then Char.ofNat (c.toNat + 32) else c

/-- Python default str.strip whitespace set. -/
def isPySpace (c : Char) : Bool :=
  c == ' ' || c == '\t' || c == '\n' || c == '\r' || c == '\x0b' || c == '\x0c'

/-- Python str.strip: drop leading and trailing whitespace. -/
def pyStrip (l : List Char) : List Char :=
  ((l.dropWhile isPySpace).reverse.dropWhile isPySpace).reverse

/-- The regular expression search re.search(r'q([1-4])', s): scan left to
right for a 'q' immediately followed by a digit 1-4 and return that digit. -/
def findQuarter : List Char → Option Char
  | [] => none
  | [_] => none
  | c :: d :: rest =>
      if c = 'q' ∧ '1' ≤ d ∧ d ≤ '4' then some d else findQuarter (d :: rest)

/-- The regular expression search re.search(r'(20\d\x7b2\x7d)', s): scan left
to right for '2','0' followed by two decimal digits; return the numeric value
of those four characters. -/
def findYear : List Char → Option Nat
  | [] => none
  | [_] => none
  | [_, _] => none
  | [_, _, _] => none
  | a :: b :: c :: d :: rest =>
      if a = '2' ∧ b = '0' ∧ c.isDigit = true ∧ d.isDigit = true then
        some (2000 + 10 * (c.toNat - 48) + (d.toNat - 48))
      else findYear (b :: c :: d :: rest)

/-- The fixed keyword list from _analyze_link. -/
def earnings_keywords : List (List Char) :=
  ["earnings call".toList, "quarterly results".toList, "q1".toList, "q2".toList,
   "q3".toList, "q4".toList, "conference call".toList, "webcast".toList,
   "financial results".toList, "investor call".toList]

/-- Audio file extensions checked by _analyze_link. -/
def audio_exts : List (List Char) := [".mp3".toList, ".wav".toList, ".m4a".toList]

/-- Video file extensions checked by _analyze_link. -/
def video_exts : List (List Char) := [".mp4".toList, ".webm".toList]

/-- Test whether any audio extension occurs anywhere in the lower-cased href
(the code uses the Python `in` operator, i.e. substring containment). -/
def hasAudioExt (href : List Char) : Bool :=
  audio_exts.any (fun e => containsSub (href.map lowerChar) e)

/-- Test whether any video extension occurs anywhere in the lower-cased href. -/
def hasVideoExt (href : List Char) : Bool :=
  video_exts.any (fun e => containsSub (href.map lowerChar) e)

/-- The call-type decision of _analyze_link: start from "webcast", then audio
extension, video extension, and the word "transcript" in the lower-cased
anchor text, in that priority order. -/
def call_type_of (href text : List Char) : List Char :=
  if hasAudioExt href then "audio".toList
  else if hasVideoExt href then "video".toList
  else if containsSub (text.map lowerChar) "transcript".toList then "transcript".toList
  else "webcast".toList

/-- The record produced by the classifier (dataclass EarningsCall). -/
structure EarningsCall where
  ticker : List Char
  company : List Char
  title : List Char
  url : List Char
  call_type : List Char
  quarter : List Char
  year : Nat
  found_on_page : List Char
  discovered_at : List Char
deriving DecidableEq

/-- The classifier _analyze_link.  The urljoin resolver (urllib library
code), the current year (datetime.now().year) and the current timestamp
(datetime.now().isoformat()) are passed explicitly; the unused link_element
parameter of the Python function is dropped. -/
def analyze_link (urljoin : List Char → List Char → List Char)
    (href text page_url ticker company_name : List Char)
    (current_year : Nat) (now_str : List Char) : Option EarningsCall :=
  let text_lower := text.map lowerChar
  if earnings_keywords.any (fun kw => containsSub text_lower kw) then
    some {
      ticker := ticker
      company := company_name
      title := text
      url := urljoin page_url href
      call_type := call_type_of href text
      quarter :=
        match findQuarter text_lower with
        | some d => ['Q', d]
        | none => "Unknown".toList
      year :=
        match findYear text with
        | some y => y
        | none => current_year
      found_on_page := page_url
      discovered_at := now_str }
  else none

/-- Result of one fetch by the requests session: a response carrying a
status code and the anchors extracted from its body, or a raised exception
(network error or timeout).  Page content is modelled as the ordered
(href, raw anchor text) pairs BeautifulSoup extracts from it. -/
inductive FetchResult where
  | ok (status : Nat) (anchors : List (List Char × List Char))
  | err
deriving DecidableEq

/-- The per-page scan _scrape_page.  The fetch (requests session plus
anchor extraction) and urljoin are explicit parameters; the seed timeout is
10 seconds.  A fetch exception propagates to the caller (error value); a
non-200 status returns the empty list; otherwise each anchor's text is
stripped and handed to analyze_link. -/
def scrape_page (fetch : List Char → Nat → FetchResult)
    (urljoin : List Char → List Char → List Char)
    (url ticker company_name : List Char)
    (current_year : Nat) (now_str : List Char) :
    Except Unit (List EarningsCall) :=
  match fetch url 10 with
  | FetchResult.err => Except.error ()
  | FetchResult.ok status anchors =>
      if status == 200 then
        Except.ok (anchors.filterMap (fun a =>
          analyze_link urljoin a.1 (pyStrip a.2) url ticker company_name
            current_year now_str))
      else Except.ok []

/-- The five fixed candidate paths of _find_event_pages. -/
def event_paths : List (List Char) :=
  ["/events".toList, "/events-and-presentations".toList, "/webcasts".toList,
   "/earnings".toList, "/investor-relations/events".toList]

/-- The candidate URL list of _find_event_pages: scheme and domain come from
urlparse (urllib library code, passed in as a scheme-and-netloc splitter). -/
def event_urls (urlparse : List Char → List Char × List Char)
    (base_url : List Char) : List (List Char) :=
  event_paths.map (fun p =>
    (urlparse base_url).1 ++ "://".toList ++ (urlparse base_url).2 ++ p)

/-- The body of the candidate loop in _find_event_pages: probe one candidate
URL with the short 5-second timeout; on a raised exception contribute
nothing; on status 200 run _scrape_page on the candidate (whose own fetch
exception is also swallowed by the bare except); any other status is
skipped. -/
def candidate_calls (fetch : List Char → Nat → FetchResult)
    (urljoin : List Char → List Char → List Char)
    (event_url ticker company_name : List Char)
    (current_year : Nat) (now_str : List Char) : List EarningsCall :=
  match fetch event_url 5 with
  | FetchResult.err => []
  | FetchResult.ok status _ =>
      if status == 200 then
        match scrape_page fetch urljoin event_url ticker company_name
            current_year now_str with
        | Except.error _ => []
        | Except.ok page_calls => page_calls
      else []

/-- The frontier expansion _find_event_pages: accumulate the candidate
contributions over the fixed candidate list. -/
def find_event_pages (fetch : List Char → Nat → FetchResult)
    (urljoin : List Char → List Char → List Char)
    (urlparse : List Char → List Char × List Char)
    (base_url ticker company_name : List Char)
    (current_year : Nat) (now_str : List Char) : List EarningsCall :=
  (event_urls urlparse base_url).foldl
    (fun calls u =>
      calls ++ candidate_calls fetch urljoin u ticker company_name
        current_year now_str) []

/-- A fetch outcome that _find_event_pages treats as failure for a
candidate: a raised exception (network error, timeout) or a response whose
status code is not 200. -/
def fetchFails : FetchResult → Prop
  | FetchResult.err => True
  | FetchResult.ok status _ => status ≠ 200

/-- The table earnings_calls, modelled as its rows in rowid order.  init_db
creates it empty; url carries a UNIQUE constraint. -/
def emptyDB : List EarningsCall := []

/-- save_call: INSERT OR REPLACE keyed on the UNIQUE url column deletes any
existing row with the same url and appends the new row (fresh rowid).  The
model covers the successful write path; a raised write error is caught and
logged by the code and leaves the table unchanged. -/
def save_call (db : List EarningsCall) (call : EarningsCall) : List EarningsCall :=
  db.filter (fun r => !(r.url == call.url)) ++ [call]

/-- get_stats: total row count plus COUNT(*) grouped by ticker.  The group
key list is the distinct tickers; SQLite emits the groups in sorted order,
which no claim depends on, so group order is left as first-occurrence
order here. -/
def get_stats (db : List EarningsCall) : Nat × List (List Char × Nat) :=
  (db.length,
   ((db.map (fun r => r.ticker)).dedup).map
     (fun t => (t, (db.filter (fun r => r.ticker == t)).length)))

/-- A match of the quarter pattern at position i of a character list:
the character 'q' immediately followed by a digit between 1 and 4. -/
def qMatchAt (l : List Char) (i : Nat) (d : Char) : Prop :=
  l.get? i = some 'q' ∧ l.get? (i + 1) = some d ∧ '1' ≤ d ∧ d ≤ '4'

/-- A match of the year pattern at position i of a character list: the
characters '2' and '0' followed by two decimal digits, with y the numeric
value of the four matched characters. -/
def yMatchAt (l : List Char) (i : Nat) (y : Nat) : Prop :=
  ∃ c d, l.get? i = some '2' ∧ l.get? (i + 1) = some '0' ∧
    l.get? (i + 2) = some c ∧ l.get? (i + 3) = some d ∧
    c.isDigit = true ∧ d.isDigit = true ∧
    y = 2000 + 10 * (c.toNat - 48) + (d.toNat - 48)

lemma get?_cons_shift (a : Char) (l : List Char) (k m : Nat) (h : k = m + 1) :
    (a :: l).get? k = l.get? m := by
  subst h; rfl

lemma qMatchAt_succ_iff (c : Char) (l : List Char) (i : Nat) (d : Char) :
    qMatchAt (c :: l) (i + 1) d ↔ qMatchAt l i d := by
  unfold qMatchAt
  rw [get?_cons_shift c l (i + 1) i rfl,
      get?_cons_shift c l (i + 1 + 1) (i + 1) (by omega)]

lemma yMatchAt_succ_iff (a : Char) (l : List Char) (i : Nat) (y : Nat) :
    yMatchAt (a :: l) (i + 1) y ↔ yMatchAt l i y := by
  unfold yMatchAt
  simp only [get?_cons_shift a l (i + 1) i rfl,
    get?_cons_shift a l (i + 1 + 1) (i + 1) (by omega),
    get?_cons_shift a l (i + 1 + 2) (i + 2) (by omega),
    get?_cons_shift a l (i + 1 + 3) (i + 3) (by omega)]

lemma qMatchAt_zero_cons2 (c e : Char) (rest : List Char) (d : Char) :
    qMatchAt (c :: e :: rest) 0 d ↔ c = 'q' ∧ e = d ∧ '1' ≤ d ∧ d ≤ '4' := by
  unfold qMatchAt
  constructor
  · rintro ⟨h1, h2, h3, h4⟩
    simp only [List.get?_cons_zero, Option.some_inj] at h1
    have h2' : e = d := by simpa using h2
    exact ⟨h1, h2', h3, h4⟩
  · rintro ⟨rfl, rfl, h3, h4⟩
    exact ⟨rfl, rfl, h3, h4⟩

lemma yMatchAt_zero_cons4 (a b c d : Char) (rest : List Char) (y : Nat) :
    yMatchAt (a :: b :: c :: d :: rest) 0 y ↔
      a = '2' ∧ b = '0' ∧ c.isDigit = true ∧ d.isDigit = true ∧
        y = 2000 + 10 * (c.toNat - 48) + (d.toNat - 48) := by
  unfold yMatchAt
  constructor
  · rintro ⟨c', d', h1, h2, h3, h4, h5, h6, h7⟩
    have ha : a = '2' := by simpa using h1
    have hb : b = '0' := by simpa using h2
    have hc : c = c' := by simpa using h3
    have hd : d = d' := by simpa using h4
    subst hc; subst hd
    exact ⟨ha, hb, h5, h6, h7⟩
  · rintro ⟨rfl, rfl, h5, h6, rfl⟩
    exact ⟨c, d, rfl, rfl, rfl, rfl, h5, h6, rfl⟩

lemma qMatchAt_length (l : List Char) (i : Nat) (d : Char) (h : qMatchAt l i d) :
    i + 1 < l.length := by
  obtain ⟨-, h2, -, -⟩ := h
  by_contra hlen
  rw [List.get?_eq_none.mpr (by omega)] at h2
  exact Option.noConfusion h2

lemma yMatchAt_length (l : List Char) (i : Nat) (y : Nat) (h : yMatchAt l i y) :
    i + 3 < l.length := by
  obtain ⟨c, d, -, -, -, h4, -, -, -⟩ := h
  by_contra hlen
  rw [List.get?_eq_none.mpr (by omega)] at h4
  exact Option.noConfusion h4

lemma findQuarter_eq_none_iff (l : List Char) :
    findQuarter l = none ↔ ∀ i d, ¬ qMatchAt l i d := by
  induction l with
  | nil =>
      refine iff_of_true rfl ?_
      intro i d h
      have := qMatchAt_length _ _ _ h
      simp only [List.length_cons, List.length_nil] at this
      omega
  | cons c t ih =>
      cases t with
      | nil =>
          refine iff_of_true rfl ?_
          intro i d h
          have := qMatchAt_length _ _ _ h
          simp only [List.length_cons, List.length_nil] at this
          omega
      | cons e rest =>
          by_cases hc : c = 'q' ∧ '1' ≤ e ∧ e ≤ '4'
          · refine iff_of_false ?_ ?_
            · simp only [findQuarter, if_pos hc]
              exact fun h => Option.noConfusion h
            · intro hall
              exact hall 0 e ((qMatchAt_zero_cons2 c e rest e).mpr
                ⟨hc.1, rfl, hc.2.1, hc.2.2⟩)
          · have hfq : findQuarter (c :: e :: rest) = findQuarter (e :: rest) := by
              simp only [findQuarter, if_neg hc]
            rw [hfq, ih]
            constructor
            · intro h i d hm
              cases i with
              | zero =>
                  obtain ⟨h1, h2, h3, h4⟩ := (qMatchAt_zero_cons2 c e rest d).mp hm
                  subst h2
                  exact hc ⟨h1, h3, h4⟩
              | succ n => exact h n d ((qMatchAt_succ_iff c _ n d).mp hm)
            · intro h i d hm
              exact h (i + 1) d ((qMatchAt_succ_iff c _ i d).mpr hm)

lemma findQuarter_eq_some_first (l : List Char) (d : Char)
    (h : findQuarter l = some d) :
    ∃ i, qMatchAt l i d ∧ ∀ j e, j < i → ¬ qMatchAt l j e := by
  induction l with
  | nil => exact Option.noConfusion h
  | cons c t ih =>
      cases t with
      | nil => exact Option.noConfusion h
      | cons e rest =>
          by_cases hc : c = 'q' ∧ '1' ≤ e ∧ e ≤ '4'
          · simp only [findQuarter, if_pos hc, Option.some_inj] at h
            refine ⟨0, (qMatchAt_zero_cons2 c e rest d).mpr
              ⟨hc.1, h, h ▸ hc.2.1, h ▸ hc.2.2⟩, ?_⟩
            intro j f hj
            exact absurd hj (Nat.not_lt_zero j)
          · simp only [findQuarter, if_neg hc] at h
            obtain ⟨i, hm, hmin⟩ := ih h
            refine ⟨i + 1, (qMatchAt_succ_iff c _ i d).mpr hm, ?_⟩
            intro j f hj hmf
            cases j with
            | zero =>
                obtain ⟨h1, h2, h3, h4⟩ := (qMatchAt_zero_cons2 c e rest f).mp hmf
                subst h2
                exact hc ⟨h1, h3, h4⟩
            | succ n =>
                exact hmin n f (by omega) ((qMatchAt_succ_iff c _ n f).mp hmf)

lemma first_qMatch_findQuarter (l : List Char) (i : Nat) (d : Char)
    (hm : qMatchAt l i d) (hmin : ∀ j e, j < i → ¬ qMatchAt l j e) :
    findQuarter l = some d := by
  cases hfq : findQuarter l with
  | none => exact absurd hm ((findQuarter_eq_none_iff l).mp hfq i d)
  | some d' =>
      obtain ⟨i', hm', hmin'⟩ := findQuarter_eq_some_first l d' hfq
      rcases lt_trichotomy i i' with hlt | heq | hgt
      · exact absurd hm (hmin' i d hlt)
      · subst heq
        have hdd : some d = some d' := hm.2.1.symm.trans hm'.2.1
        rw [Option.some_inj] at hdd
        rw [hdd]
      · exact absurd hm' (hmin i' d' hgt)

lemma findYear_eq_none_iff (l : List Char) :
    findYear l = none ↔ ∀ i y, ¬ yMatchAt l i y := by
  induction l with
  | nil =>
      refine iff_of_true rfl ?_
      intro i y h
      have := yMatchAt_length _ _ _ h
      simp only [List.length_cons, List.length_nil] at this
      omega
  | cons a t ih =>
      cases t with
      | nil =>
          refine iff_of_true rfl ?_
          intro i y h
          have := yMatchAt_length _ _ _ h
          simp only [List.length_cons, List.length_nil] at this
          omega
      | cons b t2 =>
          cases t2 with
          | nil =>
              refine iff_of_true rfl ?_
              intro i y h
              have := yMatchAt_length _ _ _ h
              simp only [List.length_cons, List.length_nil] at this
              omega
          | cons c t3 =>
              cases t3 with
              | nil =>
                  refine iff_of_true rfl ?_
                  intro i y h
                  have := yMatchAt_length _ _ _ h
                  simp only [List.length_cons, List.length_nil] at this
                  omega
              | cons d rest =>
                  by_cases hc : a = '2' ∧ b = '0' ∧ c.isDigit = true ∧ d.isDigit = true
                  · refine iff_of_false ?_ ?_
                    · simp only [findYear, if_pos hc]
                      exact fun h => Option.noConfusion h
                    · intro hall
                      exact hall 0 (2000 + 10 * (c.toNat - 48) + (d.toNat - 48))
                        ((yMatchAt_zero_cons4 a b c d rest _).mpr
                          ⟨hc.1, hc.2.1, hc.2.2.1, hc.2.2.2, rfl⟩)
                  · have hfy : findYear (a :: b :: c :: d :: rest)
                        = findYear (b :: c :: d :: rest) := by
                      simp only [findYear, if_neg hc]
                    rw [hfy, ih]
                    constructor
                    · intro h i y hm
                      cases i with
                      | zero =>
                          obtain ⟨h1, h2, h3, h4, h5⟩ :=
                            (yMatchAt_zero_cons4 a b c d rest y).mp hm
                          exact hc ⟨h1, h2, h3, h4⟩
                      | succ n => exact h n y ((yMatchAt_succ_iff a _ n y).mp hm)
                    · intro h i y hm
                      exact h (i + 1) y ((yMatchAt_succ_iff a _ i y).mpr hm)

lemma findYear_eq_some_first (l : List Char) (y : Nat)
    (h : findYear l = some y) :
    ∃ i, yMatchAt l i y ∧ ∀ j z, j < i → ¬ yMatchAt l j z := by
  induction l with
  | nil => exact Option.noConfusion h
  | cons a t ih =>
      cases t with
      | nil => exact Option.noConfusion h
      | cons b t2 =>
          cases t2 with
          | nil => exact Option.noConfusion h
          | cons c t3 =>
              cases t3 with
              | nil => exact Option.noConfusion h
              | cons d rest =>
                  by_cases hc : a = '2' ∧ b = '0' ∧ c.isDigit = true ∧ d.isDigit = true
                  · simp only [findYear, if_pos hc, Option.some_inj] at h
                    refine ⟨0, (yMatchAt_zero_cons4 a b c d rest y).mpr
                      ⟨hc.1, hc.2.1, hc.2.2.1, hc.2.2.2, h.symm⟩, ?_⟩
                    intro j z hj
                    exact absurd hj (Nat.not_lt_zero j)
                  · simp only [findYear, if_neg hc] at h
                    obtain ⟨i, hm, hmin⟩ := ih h
                    refine ⟨i + 1, (yMatchAt_succ_iff a _ i y).mpr hm, ?_⟩
                    intro j z hj hmz
                    cases j with
                    | zero =>
                        obtain ⟨h1, h2, h3, h4, h5⟩ :=
                          (yMatchAt_zero_cons4 a b c d rest z).mp hmz
                        exact hc ⟨h1, h2, h3, h4⟩
                    | succ n =>
                        exact hmin n z (by omega) ((yMatchAt_succ_iff a _ n z).mp hmz)

lemma first_yMatch_findYear (l : List Char) (i : Nat) (y : Nat)
    (hm : yMatchAt l i y) (hmin : ∀ j z, j < i → ¬ yMatchAt l j z) :
    findYear l = some y := by
  cases hfy : findYear l with
  | none => exact absurd hm ((findYear_eq_none_iff l).mp hfy i y)
  | some y' =>
      obtain ⟨i', hm', hmin'⟩ := findYear_eq_some_first l y' hfy
      rcases lt_trichotomy i i' with hlt | heq | hgt
      · exact absurd hm (hmin' i y hlt)
      · subst heq
        obtain ⟨c, d, h1, h2, h3, h4, h5, h6, h7⟩ := hm
        obtain ⟨c', d', h1', h2', h3', h4', h5', h6', h7'⟩ := hm'
        have hcc : c = c' := by
          have := h3.symm.trans h3'
          simpa using this
        have hdd : d = d' := by
          have := h4.symm.trans h4'
          simpa using this
        subst hcc; subst hdd
        rw [h7, ← h7']
      · exact absurd hm' (hmin i' y' hgt)

lemma startsWith_iff (hay needle : List Char) :
    startsWith hay needle = true ↔ ∃ q, hay = needle ++ q := by
  induction needle generalizing hay with
  | nil => simp [startsWith]
  | cons n m ih =>
      cases hay with
      | nil => simp [startsWith]
      | cons h t =>
          simp only [startsWith, Bool.and_eq_true, beq_iff_eq, ih,
            List.cons_append, List.cons.injEq]
          constructor
          · rintro ⟨rfl, q, rfl⟩
            exact ⟨q, rfl, rfl⟩
          · rintro ⟨q, rfl, rfl⟩
            exact ⟨rfl, q, rfl⟩

lemma containsSub_iff (hay needle : List Char) :
    containsSub hay needle = true ↔ ∃ p q, hay = p ++ needle ++ q := by
  induction hay with
  | nil =>
      simp only [containsSub, startsWith_iff]
      constructor
      · rintro ⟨q, h⟩
        exact ⟨[], q, h⟩
      · rintro ⟨p, q, h⟩
        have h3 : p = [] ∧ needle = [] ∧ q = [] := by simpa using h.symm
        exact ⟨[], by simp [h3.2.1]⟩
  | cons h t ih =>
      simp only [containsSub, Bool.or_eq_true, startsWith_iff, ih]
      constructor
      · rintro (⟨q, hq⟩ | ⟨p, q, hpq⟩)
        · exact ⟨[], q, by simpa using hq⟩
        · exact ⟨h :: p, q, by simp [hpq]⟩
      · rintro ⟨p, q, hpq⟩
        cases p with
        | nil => exact Or.inl ⟨q, by simpa using hpq⟩
        | cons x xs =>
            obtain ⟨-, ht⟩ := List.cons.inj (by simpa using hpq)
            exact Or.inr ⟨xs, q, by rw [List.append_assoc]; exact ht⟩

/-- The record shape produced by a successful classification: spelling out
what each field of the returned record is. -/
lemma analyze_link_some (urljoin : List Char → List Char → List Char)
    (href text page_url ticker company_name : List Char)
    (current_year : Nat) (now_str : List Char) (rec : EarningsCall)
    (h : analyze_link urljoin href text page_url ticker company_name
      current_year now_str = some rec) :
    rec = { ticker := ticker, company := company_name, title := text,
            url := urljoin page_url href,
            call_type := call_type_of href text,
            quarter :=
              match findQuarter (text.map lowerChar) with
              | some d => ['Q', d]
              | none => "Unknown".toList,
            year :=
              match findYear text with
              | some y => y
              | none => current_year,
            found_on_page := page_url, discovered_at := now_str } := by
  simp only [analyze_link] at h
  by_cases hk : (earnings_keywords.any fun kw =>
      containsSub (List.map lowerChar text) kw) = true
  · rw [if_pos hk] at h
    exact (Option.some_inj.mp h).symm
  · rw [if_neg hk] at h
    exact Option.noConfusion h

lemma call_type_of_mem (href text : List Char) :
    call_type_of href text = "webcast".toList
    ∨ call_type_of href text = "audio".toList
    ∨ call_type_of href text = "video".toList
    ∨ call_type_of href text = "transcript".toList := by
  unfold call_type_of
  split_ifs <;> decide

/-- C1: the keyword test is the sole filter: the classifier returns none
exactly when the lower-cased anchor text contains none of the ten keywords
as a substring; the href plays no role in the decision. -/
theorem keyword_filter_sole (urljoin : List Char → List Char → List Char)
    (href text page_url ticker company_name : List Char)
    (current_year : Nat) (now_str : List Char) :
    analyze_link urljoin href text page_url ticker company_name
      current_year now_str = none
      ↔ ∀ kw ∈ earnings_keywords, containsSub (text.map lowerChar) kw = false := by
  simp only [analyze_link]
  by_cases hk : (earnings_keywords.any fun kw =>
      containsSub (List.map lowerChar text) kw) = true
  · rw [if_pos hk]
    refine iff_of_false (fun h => Option.noConfusion h) ?_
    intro hall
    obtain ⟨kw, hmem, hkw⟩ := List.any_eq_true.mp hk
    rw [hall kw hmem] at hkw
    exact Bool.noConfusion hkw
  · rw [if_neg hk]
    refine iff_of_true rfl ?_
    intro kw hmem
    cases hcs : containsSub (List.map lowerChar text) kw with
    | false => rfl
    | true => exact absurd (List.any_eq_true.mpr ⟨kw, hmem, hcs⟩) hk

/-- C5 counterexample: an empty href together with keyword-bearing anchor
text does NOT make the classifier return none, contradicting the claim that
every call with an empty href returns none. -/
theorem empty_href_counterexample :
    (analyze_link (fun _ h => h) [] "earnings call".toList "p".toList
      "t".toList "c".toList 2025 "d".toList).isSome = true := by decide

/-- C5 (amended): the classifier has no error condition: it is a total
function; an empty anchor text always fails the keyword test and yields
none; an empty href does not by itself yield none, because whether none is
returned depends only on the anchor text (and on nothing else). -/
theorem malformed_input_no_error (urljoin urljoin' : List Char → List Char → List Char)
    (href href' text page_url page_url' ticker ticker' company_name company_name' : List Char)
    (current_year current_year' : Nat) (now_str now_str' : List Char) :
    analyze_link urljoin href [] page_url ticker company_name
      current_year now_str = none
    ∧ (analyze_link urljoin [] text page_url ticker company_name
        current_year now_str = none
        ↔ analyze_link urljoin' href' text page_url' ticker' company_name'
            current_year' now_str' = none) := by
  constructor
  · exact (keyword_filter_sole urljoin href [] page_url ticker company_name
      current_year now_str).mpr (by decide)
  · rw [keyword_filter_sole, keyword_filter_sole]

/-- C2 counterexample: the claim's example input, href "call.mp3" with
anchor text exactly "Transcript", is rejected by the keyword filter and
classified as nothing at all, not as an audio record. -/
theorem transcript_example_counterexample :
    analyze_link (fun _ h => h) "call.mp3".toList "Transcript".toList
      "p".toList "t".toList "c".toList 2025 "d".toList = none := by decide

/-- C2 (amended): for every anchor that passes the keyword filter, call_type
follows the fixed descending priority (audio extension, then video
extension, then the text keyword "transcript", else "webcast"), and lies in
the four-element enumeration; href "call.mp3" whose text also passes the
filter, e.g. "Q1 Transcript", yields "audio" (extension wins over the
transcript keyword), while text exactly "Transcript" passes no filter and
yields no record at all. -/
theorem call_type_priority (urljoin : List Char → List Char → List Char)
    (href text page_url ticker company_name : List Char)
    (current_year : Nat) (now_str : List Char) (rec : EarningsCall)
    (h : analyze_link urljoin href text page_url ticker company_name
      current_year now_str = some rec) :
    (hasAudioExt href = true → rec.call_type = "audio".toList)
    ∧ (hasAudioExt href = false → hasVideoExt href = true →
        rec.call_type = "video".toList)
    ∧ (hasAudioExt href = false → hasVideoExt href = false →
        containsSub (text.map lowerChar) "transcript".toList = true →
        rec.call_type = "transcript".toList)
    ∧ (hasAudioExt href = false → hasVideoExt href = false →
        containsSub (text.map lowerChar) "transcript".toList = false →
        rec.call_type = "webcast".toList)
    ∧ (rec.call_type = "webcast".toList ∨ rec.call_type = "audio".toList
        ∨ rec.call_type = "video".toList ∨ rec.call_type = "transcript".toList) := by
  have hrec := analyze_link_some _ _ _ _ _ _ _ _ _ h
  subst hrec
  refine ⟨?_, ?_, ?_, ?_, ?_⟩
  · intro ha
    show call_type_of href text = "audio".toList
    unfold call_type_of
    rw [ha]
    rfl
  · intro ha hv
    show call_type_of href text = "video".toList
    unfold call_type_of
    rw [ha, hv]
    rfl
  · intro ha hv ht
    show call_type_of href text = "transcript".toList
    unfold call_type_of
    rw [ha, hv, ht]
    rfl
  · intro ha hv ht
    show call_type_of href text = "webcast".toList
    unfold call_type_of
    rw [ha, hv, ht]
    rfl
  · exact call_type_of_mem href text

/-- Witness for C2: the corrected concrete example, href "call.mp3" with
filter-passing text "Q1 Transcript", is classified and gets call_type
"audio". -/
theorem call_type_priority_witness :
    ∃ rec, analyze_link (fun _ h => h) "call.mp3".toList "Q1 Transcript".toList
      "p".toList "t".toList "c".toList 2025 "d".toList = some rec
      ∧ rec.call_type = "audio".toList := by
  cases hx : analyze_link (fun _ h => h) "call.mp3".toList "Q1 Transcript".toList
      "p".toList "t".toList "c".toList 2025 "d".toList with
  | none => exact absurd hx (by decide)
  | some rec =>
      exact ⟨rec, rfl,
        (call_type_priority (fun _ h => h) "call.mp3".toList
          "Q1 Transcript".toList "p".toList "t".toList "c".toList 2025
          "d".toList rec hx).1 (by decide)⟩

/-- C3: for every record returned by the classifier, quarter is "Q" followed
by the digit of the first occurrence of the pattern 'q'-digit-1-to-4 in the
lower-cased anchor text, and it is "Unknown" exactly when the lower-cased
text has no such occurrence. -/
theorem quarter_extraction (urljoin : List Char → List Char → List Char)
    (href text page_url ticker company_name : List Char)
    (current_year : Nat) (now_str : List Char) (rec : EarningsCall)
    (h : analyze_link urljoin href text page_url ticker company_name
      current_year now_str = some rec) :
    (∀ i d, qMatchAt (text.map lowerChar) i d →
        (∀ j e, j < i → ¬ qMatchAt (text.map lowerChar) j e) →
        rec.quarter = ['Q', d])
    ∧ (rec.quarter = "Unknown".toList
        ↔ ∀ i d, ¬ qMatchAt (text.map lowerChar) i d) := by
  have hrec := analyze_link_some _ _ _ _ _ _ _ _ _ h
  subst hrec
  constructor
  · intro i d hm hmin
    have hfq := first_qMatch_findQuarter _ i d hm hmin
    show (match findQuarter (List.map lowerChar text) with
          | some d => ['Q', d]
          | none => "Unknown".toList) = ['Q', d]
    rw [hfq]
  · show (match findQuarter (List.map lowerChar text) with
          | some d => ['Q', d]
          | none => "Unknown".toList) = "Unknown".toList ↔ _
    cases hq : findQuarter (List.map lowerChar text) with
    | none => exact iff_of_true rfl ((findQuarter_eq_none_iff _).mp hq)
    | some d =>
        refine iff_of_false ?_ ?_
        · intro hEq
          have hlen := congrArg List.length hEq
          simp at hlen
        · intro hall
          obtain ⟨i, hm, -⟩ := findQuarter_eq_some_first _ _ hq
          exact hall i d hm

/-- Witness for C3: the text "Q3 2024 Conference Call" has its first (and
only) quarter-pattern match at position 0 with digit '3', and the returned
record's quarter is "Q3". -/
theorem quarter_extraction_witness :
    ∃ rec, analyze_link (fun _ h => h) "x".toList
      "Q3 2024 Conference Call".toList "p".toList "t".toList "c".toList
      2025 "d".toList = some rec ∧ rec.quarter = ['Q', '3'] := by
  cases hx : analyze_link (fun _ h => h) "x".toList
      "Q3 2024 Conference Call".toList "p".toList "t".toList "c".toList
      2025 "d".toList with
  | none => exact absurd hx (by decide)
  | some rec =>
      refine ⟨rec, rfl, ?_⟩
      exact (quarter_extraction (fun _ h => h) "x".toList
        "Q3 2024 Conference Call".toList "p".toList "t".toList "c".toList
        2025 "d".toList rec hx).1 0 '3'
        ⟨by decide, by decide, by decide, by decide⟩
        (fun j e hj => absurd hj (Nat.not_lt_zero j))

/-- C4: for every record returned by the classifier, year is the numeric
value of the first match of the pattern 2-0-digit-digit in the original-case
anchor text, and it is the supplied current year when the text has no such
match. -/
theorem year_extraction (urljoin : List Char → List Char → List Char)
    (href text page_url ticker company_name : List Char)
    (current_year : Nat) (now_str : List Char) (rec : EarningsCall)
    (h : analyze_link urljoin href text page_url ticker company_name
      current_year now_str = some rec) :
    (∀ i y, yMatchAt text i y →
        (∀ j z, j < i → ¬ yMatchAt text j z) →
        rec.year = y)
    ∧ ((∀ i y, ¬ yMatchAt text i y) → rec.year = current_year) := by
  have hrec := analyze_link_some _ _ _ _ _ _ _ _ _ h
  subst hrec
  constructor
  · intro i y hm hmin
    have hfy := first_yMatch_findYear _ i y hm hmin
    show (match findYear text with
          | some y => y
          | none => current_year) = y
    rw [hfy]
  · intro hall
    have hfy : findYear text = none := (findYear_eq_none_iff _).mpr hall
    show (match findYear text with
          | some y => y
          | none => current_year) = current_year
    rw [hfy]

/-- Witness for C4: the text "2024 q3 webcast" has its first year-pattern
match at position 0 with value 2024, and the returned record's year is
2024; the text "q1 webcast" has no year pattern at all and the returned
record's year is the supplied current year 2025. -/
theorem year_extraction_witness :
    (∃ rec, analyze_link (fun _ h => h) "x".toList "2024 q3 webcast".toList
      "p".toList "t".toList "c".toList 2025 "d".toList = some rec
      ∧ rec.year = 2024)
    ∧ (∃ rec, analyze_link (fun _ h => h) "x".toList "q1 webcast".toList
      "p".toList "t".toList "c".toList 2025 "d".toList = some rec
      ∧ rec.year = 2025) := by
  constructor
  · cases hx : analyze_link (fun _ h => h) "x".toList "2024 q3 webcast".toList
        "p".toList "t".toList "c".toList 2025 "d".toList with
    | none => exact absurd hx (by decide)
    | some rec =>
        refine ⟨rec, rfl, ?_⟩
        exact (year_extraction (fun _ h => h) "x".toList
          "2024 q3 webcast".toList "p".toList "t".toList "c".toList 2025
          "d".toList rec hx).1 0 2024
          ⟨'2', '4', by decide, by decide, by decide, by decide, by decide,
            by decide, by decide⟩
          (fun j z hj => absurd hj (Nat.not_lt_zero j))
  · cases hx : analyze_link (fun _ h => h) "x".toList "q1 webcast".toList
        "p".toList "t".toList "c".toList 2025 "d".toList with
    | none => exact absurd hx (by decide)
    | some rec =>
        refine ⟨rec, rfl, ?_⟩
        refine (year_extraction (fun _ h => h) "x".toList
          "q1 webcast".toList "p".toList "t".toList "c".toList 2025
          "d".toList rec hx).2 ?_
        intro i y hm
        obtain ⟨c, d, h1, -⟩ := hm
        exact absurd (List.get?_mem h1) (by decide)

/-- C9: the extension check of the call-type decision is substring
containment over the whole lower-cased href, not a suffix check: an audio
extension occurring anywhere forces call_type "audio", and a video
extension occurring anywhere with no audio extension present forces
call_type "video". -/
theorem extension_substring_semantics (urljoin : List Char → List Char → List Char)
    (href text page_url ticker company_name : List Char)
    (current_year : Nat) (now_str : List Char) (rec : EarningsCall)
    (h : analyze_link urljoin href text page_url ticker company_name
      current_year now_str = some rec) :
    ((∃ e ∈ audio_exts, ∃ p q, href.map lowerChar = p ++ e ++ q) →
        rec.call_type = "audio".toList)
    ∧ ((∀ e ∈ audio_exts, ∀ p q, href.map lowerChar ≠ p ++ e ++ q) →
        (∃ e ∈ video_exts, ∃ p q, href.map lowerChar = p ++ e ++ q) →
        rec.call_type = "video".toList) := by
  constructor
  · rintro ⟨e, he, p, q, hpq⟩
    have ha : hasAudioExt href = true := by
      unfold hasAudioExt
      exact List.any_eq_true.mpr ⟨e, he, (containsSub_iff _ _).mpr ⟨p, q, hpq⟩⟩
    exact (call_type_priority urljoin href text page_url ticker company_name
      current_year now_str rec h).1 ha
  · rintro hno ⟨e, he, p, q, hpq⟩
    have ha : hasAudioExt href = false := by
      cases hab : hasAudioExt href with
      | false => rfl
      | true =>
          exfalso
          unfold hasAudioExt at hab
          obtain ⟨e', he', hcs⟩ := List.any_eq_true.mp hab
          obtain ⟨p', q', hd⟩ := (containsSub_iff _ _).mp hcs
          exact hno e' he' p' q' hd
    have hv : hasVideoExt href = true := by
      unfold hasVideoExt
      exact List.any_eq_true.mpr ⟨e, he, (containsSub_iff _ _).mpr ⟨p, q, hpq⟩⟩
    exact ((call_type_priority urljoin href text page_url ticker company_name
      current_year now_str rec h).2.1) ha hv

/-- Witness for C9: the href of the claim's example, with ".mp3" buried in
the middle of a path segment rather than as a file extension, still yields
call_type "audio". -/
theorem extension_substring_semantics_witness :
    ∃ rec, analyze_link (fun _ h => h)
      "https://host/files.mp3archive/page.html".toList "webcast".toList
      "p".toList "t".toList "c".toList 2025 "d".toList = some rec
      ∧ rec.call_type = "audio".toList := by
  cases hx : analyze_link (fun _ h => h)
      "https://host/files.mp3archive/page.html".toList "webcast".toList
      "p".toList "t".toList "c".toList 2025 "d".toList with
  | none => exact absurd hx (by decide)
  | some rec =>
      refine ⟨rec, rfl, ?_⟩
      exact (extension_substring_semantics (fun _ h => h)
        "https://host/files.mp3archive/page.html".toList "webcast".toList
        "p".toList "t".toList "c".toList 2025 "d".toList rec hx).1
        ⟨".mp3".toList, by decide,
          "https://host/files".toList, "archive/page.html".toList, by decide⟩

/-- Two sample rows sharing a url but differing in title, for exercising
the upsert. -/
def callOld : EarningsCall :=
  { ticker := "AAPL".toList, company := "Apple Inc.".toList,
    title := "Q1 2024 Earnings Call".toList,
    url := "https://investor.apple.com/q1".toList,
    call_type := "webcast".toList, quarter := "Q1".toList, year := 2024,
    found_on_page := "https://investor.apple.com".toList,
    discovered_at := "2024-01-01T00:00:00".toList }

def callNew : EarningsCall :=
  { ticker := "AAPL".toList, company := "Apple Inc.".toList,
    title := "Q1 2024 Earnings Call Replay".toList,
    url := "https://investor.apple.com/q1".toList,
    call_type := "webcast".toList, quarter := "Q1".toList, year := 2024,
    found_on_page := "https://investor.apple.com".toList,
    discovered_at := "2024-02-01T00:00:00".toList }

/-- C6: the upsert is insert-or-replace keyed on url with last-write-wins:
after saving two records with the same url, exactly one row with that url
remains, it is the later record (hence carries the later title), and the
second save leaves the total row count unchanged. -/
theorem upsert_last_write_wins (db : List EarningsCall) (c₁ c₂ : EarningsCall)
    (hurl : c₁.url = c₂.url) (htitle : c₁.title ≠ c₂.title) :
    (save_call (save_call db c₁) c₂).filter (fun r => r.url == c₂.url) = [c₂]
    ∧ (save_call (save_call db c₁) c₂).length = (save_call db c₁).length := by
  have key : (save_call db c₁).filter (fun r => !(r.url == c₂.url))
      = db.filter (fun r => !(r.url == c₁.url)) := by
    unfold save_call
    rw [List.filter_append]
    have h1 : (db.filter (fun r => !(r.url == c₁.url))).filter
        (fun r => !(r.url == c₂.url)) = db.filter (fun r => !(r.url == c₁.url)) := by
      apply List.filter_eq_self.mpr
      intro a ha
      have h2 := (List.mem_filter.mp ha).2
      rw [← hurl]
      exact h2
    have h2 : [c₁].filter (fun r => !(r.url == c₂.url)) = [] := by
      simp [List.filter, hurl]
    rw [h1, h2, List.append_nil]
  constructor
  · show ((save_call db c₁).filter (fun r => !(r.url == c₂.url))
        ++ [c₂]).filter (fun r => r.url == c₂.url) = [c₂]
    rw [key, List.filter_append]
    have h3 : (db.filter (fun r => !(r.url == c₁.url))).filter
        (fun r => r.url == c₂.url) = [] := by
      apply List.filter_eq_nil_iff.mpr
      intro a ha
      have h4 := (List.mem_filter.mp ha).2
      rw [hurl] at h4
      simp only [Bool.not_eq_true', beq_eq_false_iff_ne] at h4
      simp [h4]
    have h5 : [c₂].filter (fun r => r.url == c₂.url) = [c₂] := by simp
    rw [h3, h5, List.nil_append]
  · show ((save_call db c₁).filter (fun r => !(r.url == c₂.url))
        ++ [c₂]).length = (save_call db c₁).length
    rw [key]
    unfold save_call
    simp

/-- Witness for C6: saving two concrete records with the same url and
different titles leaves exactly the later record under that url and does
not change the row count. -/
theorem upsert_last_write_wins_witness :
    (save_call (save_call emptyDB callOld) callNew).filter
        (fun r => r.url == callNew.url) = [callNew]
    ∧ (save_call (save_call emptyDB callOld) callNew).length
        = (save_call emptyDB callOld).length :=
  upsert_last_write_wins emptyDB callOld callNew (by decide) (by decide)

lemma sum_group_counts (db : List EarningsCall) :
    (((db.map (fun r => r.ticker)).dedup).map
      (fun t => (db.filter (fun r => r.ticker == t)).length)).sum = db.length := by
  have hcnt : ∀ t, (db.filter (fun r => r.ticker == t)).length
      = (db.map (fun r => r.ticker)).count t := by
    intro t
    rw [← List.countP_eq_length_filter]
    rw [List.count, List.countP_map]
    rfl
  calc (((db.map (fun r => r.ticker)).dedup).map
      (fun t => (db.filter (fun r => r.ticker == t)).length)).sum
      = (((db.map (fun r => r.ticker)).dedup).map
        (fun t => (db.map (fun r => r.ticker)).count t)).sum := by
        simp only [hcnt]
    _ = (db.map (fun r => r.ticker)).length := by
        have h := Multiset.toFinset_sum_count_eq
          ((db.map (fun r => r.ticker)) : Multiset (List Char))
        have hb1 : ∀ (x a : List Char),
            (@BEq.beq _ List.instBEq x a) = decide (x = a) := by
          intro x a
          by_cases hxa : x = a <;> simp [hxa]
        have hb2 : ∀ (x a : List Char),
            (@BEq.beq _ instBEqOfDecidableEq x a) = decide (x = a) := by
          intro x a
          by_cases hxa : x = a <;> simp [hxa]
        simp only [Finset.sum] at h
        simp only [List.count, List.countP, hb1, hb2] at h ⊢
        simpa using h
    _ = db.length := by simp

/-- C8: the aggregate statistics are consistent after any sequence of
upserts into the initially empty store: the per-ticker counts sum to the
reported total. -/
theorem stats_sum_consistent (recs : List EarningsCall) :
    (((get_stats (recs.foldl save_call emptyDB)).2).map (fun p => p.2)).sum
      = (get_stats (recs.foldl save_call emptyDB)).1 := by
  have h : ∀ db : List EarningsCall,
      ((get_stats db).2.map (fun p => p.2)).sum = (get_stats db).1 := by
    intro db
    unfold get_stats
    rw [List.map_map]
    exact sum_group_counts db
  exact h _

lemma foldl_append_eq_flatten (g : List Char → List EarningsCall)
    (l : List (List Char)) (acc : List EarningsCall) :
    l.foldl (fun calls u => calls ++ g u) acc = acc ++ (l.map g).flatten := by
  induction l generalizing acc with
  | nil => simp
  | cons u rest ih => simp [ih, List.append_assoc]

/-- C7: the frontier expansion is the independent concatenation of the five
candidate probes, so a failing candidate is silently skipped while the
remaining candidates are still probed; when every candidate fetch fails
(raised exception or non-success status) it returns the empty list, and it
is a total function, so it never raises. -/
theorem frontier_silence (fetch : List Char → Nat → FetchResult)
    (urljoin : List Char → List Char → List Char)
    (urlparse : List Char → List Char × List Char)
    (base_url ticker company_name : List Char)
    (current_year : Nat) (now_str : List Char) :
    find_event_pages fetch urljoin urlparse base_url ticker company_name
        current_year now_str
      = ((event_urls urlparse base_url).map (fun u =>
          candidate_calls fetch urljoin u ticker company_name
            current_year now_str)).flatten
    ∧ ((∀ u ∈ event_urls urlparse base_url, fetchFails (fetch u 5)) →
        find_event_pages fetch urljoin urlparse base_url ticker company_name
          current_year now_str = []) := by
  have hflat : find_event_pages fetch urljoin urlparse base_url ticker
      company_name current_year now_str
      = ((event_urls urlparse base_url).map (fun u =>
          candidate_calls fetch urljoin u ticker company_name
            current_year now_str)).flatten := by
    unfold find_event_pages
    rw [foldl_append_eq_flatten, List.nil_append]
  refine ⟨hflat, ?_⟩
  intro hfail
  rw [hflat]
  apply List.flatten_eq_nil_iff.mpr
  intro l hl
  obtain ⟨u, hu, rfl⟩ := List.mem_map.mp hl
  have hf := hfail u hu
  unfold candidate_calls
  cases hfetch : fetch u 5 with
  | err => rfl
  | ok status anchors =>
      rw [hfetch] at hf
      have hne : status ≠ 200 := hf
      simp [hne]

/-- Witness for C7: with a fetch that raises on every URL, the frontier
expansion of a concrete seed returns the empty list. -/
theorem frontier_silence_witness :
    find_event_pages (fun _ _ => FetchResult.err) (fun _ h => h)
      (fun _ => ("https".toList, "example.com".toList))
      "https://example.com/ir".toList "AAPL".toList "Apple Inc.".toList
      2025 "d".toList = [] :=
  (frontier_silence (fun _ _ => FetchResult.err) (fun _ h => h)
    (fun _ => ("https".toList, "example.com".toList))
    "https://example.com/ir".toList "AAPL".toList "Apple Inc.".toList
    2025 "d".toList).2 (fun _ _ => trivial)

/-- C10: only HTTP status exactly 200 counts as success: a frontier
candidate whose fetch returns any other status contributes nothing (it is
never scanned), and a seed page fetched with a non-200 status yields the
empty record list from the page scan without raising. -/
theorem only_status_200_success :
    (∀ (fetch : List Char → Nat → FetchResult)
        (urljoin : List Char → List Char → List Char)
        (u ticker company_name : List Char)
        (current_year : Nat) (now_str : List Char)
        (status : Nat) (anchors : List (List Char × List Char)),
        fetch u 5 = FetchResult.ok status anchors → status ≠ 200 →
        candidate_calls fetch urljoin u ticker company_name
          current_year now_str = [])
    ∧ (∀ (fetch : List Char → Nat → FetchResult)
        (urljoin : List Char → List Char → List Char)
        (url ticker company_name : List Char)
        (current_year : Nat) (now_str : List Char)
        (status : Nat) (anchors : List (List Char × List Char)),
        fetch url 10 = FetchResult.ok status anchors → status ≠ 200 →
        scrape_page fetch urljoin url ticker company_name
          current_year now_str = Except.ok []) := by
  constructor
  · intro fetch urljoin u ticker company_name current_year now_str
      status anchors hf hne
    unfold candidate_calls
    simp [hf, hne]
  · intro fetch urljoin url ticker company_name current_year now_str
      status anchors hf hne
    unfold scrape_page
    simp [hf, hne]

/-- Witness for C10: a fetch that always answers with status 404 makes a
concrete candidate probe contribute nothing and a concrete page scan
return the empty list. -/
theorem only_status_200_success_witness :
    candidate_calls (fun _ _ => FetchResult.ok 404 []) (fun _ h => h)
        "u".toList "AAPL".toList "Apple Inc.".toList 2025 "d".toList = []
    ∧ scrape_page (fun _ _ => FetchResult.ok 404 []) (fun _ h => h)
        "u".toList "AAPL".toList "Apple Inc.".toList 2025 "d".toList
        = Except.ok [] :=
  ⟨only_status_200_success.1 (fun _ _ => FetchResult.ok 404 []) (fun _ h => h)
      "u".toList "AAPL".toList "Apple Inc.".toList 2025 "d".toList 404 []
      rfl (by decide),
   only_status_200_success.2 (fun _ _ => FetchResult.ok 404 []) (fun _ h => h)
      "u".toList "AAPL".toList "Apple Inc.".toList 2025 "d".toList 404 []
      rfl (by decide)⟩
